import Mathlib

/-!
Verification of the ADIF decoder of `to_cabrillo` (file `to_cabrillo/adif_parser.py`).

The Python source is shallowly embedded as executable Lean functions over
`List Char` / `String`.  The regular expressions of the source are compiled
by hand into deterministic scanners (each of the three patterns is
backtracking-free, which is argued in the comments next to each scanner).
The embedding covers ASCII text: Python's `\s`, `\d`, `str.strip`,
`str.upper` and `float` additionally accept certain non-ASCII characters,
which none of the statements below exercise.  Python's `float` rounds to an
IEEE double; here the numeric value is kept as an exact rational (plus
distinguished infinity/nan results), since no statement below depends on
rounding, only on which strings convert and to which kind of value.
-/

namespace ToCabrillo

/-! ### Whitespace preprocessing

`WHITESPACE_PATTERN = re.compile(r'\s+')` and
`adif_data = WHITESPACE_PATTERN.sub(' ', adif_data.strip())`.
-/

/-- The ASCII part of Python's whitespace class `\s` / `str.strip`. -/
def isWS (c : Char) : Bool :=
  c == ' ' || c == '\t' || c == '\n' || c == '\r' || c == Char.ofNat 11 || c == Char.ofNat 12

/-- Python `str.strip()` (ASCII whitespace): drop whitespace at both ends. -/
def pyStrip (l : List Char) : List Char :=
  ((l.dropWhile isWS).reverse.dropWhile isWS).reverse

/-- One left-to-right pass replacing each maximal whitespace run by a single
space; the Boolean records whether the previous character was whitespace. -/
def collapseAux : Bool → List Char → List Char
  | _, [] => []
  | inRun, c :: cs =>
    if isWS c then
      if inRun then collapseAux true cs else ' ' :: collapseAux true cs
    else c :: collapseAux false cs

/-- `WHITESPACE_PATTERN.sub(' ', ·)`: collapse every whitespace run to one space. -/
def collapseWS (l : List Char) : List Char :=
  collapseAux false l

/-- The preprocessed text: `WHITESPACE_PATTERN.sub(' ', adif_data.strip())`. -/
def normWS (s : String) : List Char :=
  collapseWS (pyStrip s.data)

/-! ### The end-of-header / end-of-record markers

`EOH_PATTERN = re.compile(r'<eoh>', re.IGNORECASE)` and
`EOR_PATTERN = re.compile(r'<eor>', re.IGNORECASE)`.
Both are case-insensitive literals, so matching is: the next five characters,
lower-cased, are the literal.  `re.split` takes non-overlapping matches left
to right (the literals cannot overlap themselves).
-/

def eohLit : List Char := ['<', 'e', 'o', 'h', '>']

def eorLit : List Char := ['<', 'e', 'o', 'r', '>']

/-- A case-insensitive `<eoh>` match starts at the head of `l`. -/
abbrev eohAt (l : List Char) : Prop := (l.take 5).map Char.toLower = eohLit

/-- A case-insensitive `<eor>` match starts at the head of `l`. -/
abbrev eorAt (l : List Char) : Prop := (l.take 5).map Char.toLower = eorLit

/-- `EOH_PATTERN.split(text, maxsplit=1)`: locate the first case-insensitive
`<eoh>`; return the text before and after it, or `none` when there is no
match (in which case Python's split returns the one-element list). -/
def eohSplitA : List Char → Option (List Char × List Char)
  | [] => none
  | c :: cs =>
    if eohAt (c :: cs) then some ([], (c :: cs).drop 5)
    else
      match eohSplitA cs with
      | some (p, q) => some (c :: p, q)
      | none => none

/-- Whether some case-insensitive `<eoh>` occurs anywhere in `l`. -/
def hasEoh : List Char → Bool
  | [] => false
  | c :: cs => decide (eohAt (c :: cs)) || hasEoh cs

/-- Fuel-indexed worker for `EOR_PATTERN.split`: first component is the text
before the next match, second the list of pieces after it.  The fuel only
serves structural recursion; `l.length` is always enough (each step consumes
at least one character). -/
def eorSplitF : Nat → List Char → List Char × List (List Char)
  | 0, l => (l, [])
  | _ + 1, [] => ([], [])
  | f + 1, c :: cs =>
    if eorAt (c :: cs) then
      let p := eorSplitF f ((c :: cs).drop 5)
      ([], p.1 :: p.2)
    else
      let p := eorSplitF f cs
      (c :: p.1, p.2)

/-- `EOR_PATTERN.split(data)`: the non-empty list of pieces between
(case-insensitive) `<eor>` markers. -/
def eorSplit (l : List Char) : List (List Char) :=
  (eorSplitF l.length l).1 :: (eorSplitF l.length l).2

/-! ### The tag scanner

`TAG_PATTERN = re.compile(r'<([^:>]+):(\d+)>([^<]*)')`, used through
`finditer`.  The pattern is deterministic: each of the three repeated
classes excludes the character that must follow it, so the greedy run is
the only possible run and no backtracking can succeed where the greedy
attempt fails.  `finditer` yields non-overlapping matches left to right,
retrying from the next position after a failed attempt.
-/

structure Tag where
  name : List Char
  length : List Char
  value : List Char
deriving DecidableEq

/-- The character class `[^:>]` of the tag-name group. -/
def nameChar (c : Char) : Bool := !(c == ':') && !(c == '>')

/-- The character class `[^<]` of the value group. -/
def valueChar (c : Char) : Bool := !(c == '<')

/-- Attempt the tag pattern just after a `<`: greedy non-empty `[^:>]+` run,
a literal `:`, greedy non-empty digit run, a literal `>`, then the greedy
(possibly empty) `[^<]*` run.  Returns the captures and the rest of the
input on success. -/
def tryTag (cs : List Char) : Option (Tag × List Char) :=
  match cs.dropWhile nameChar with
  | [] => none
  | c1 :: r2 =>
    if c1 = ':' ∧ cs.takeWhile nameChar ≠ [] then
      match r2.dropWhile Char.isDigit with
      | [] => none
      | c2 :: r4 =>
        if c2 = '>' ∧ r2.takeWhile Char.isDigit ≠ [] then
          some (⟨cs.takeWhile nameChar, r2.takeWhile Char.isDigit, r4.takeWhile valueChar⟩,
            r4.dropWhile valueChar)
        else none
    else none

theorem length_dropWhile_le (p : Char → Bool) (l : List Char) :
    (l.dropWhile p).length ≤ l.length := by
  induction l with
  | nil => simp [List.dropWhile]
  | cons c cs ih =>
    by_cases h : p c <;> simp [List.dropWhile, h]
    omega

theorem tryTag_length {cs r : List Char} {t : Tag} (h : tryTag cs = some (t, r)) :
    r.length ≤ cs.length := by
  unfold tryTag at h
  have h1 : (cs.dropWhile nameChar).length ≤ cs.length := length_dropWhile_le _ _
  split at h
  · exact absurd h (by simp)
  · rename_i c1 r2 heq2
    rw [heq2] at h1
    split at h
    · have h2 : (r2.dropWhile Char.isDigit).length ≤ r2.length := length_dropWhile_le _ _
      split at h
      · exact absurd h (by simp)
      · rename_i c2 r4 heq4
        rw [heq4] at h2
        split at h
        · have h3 : (r4.dropWhile valueChar).length ≤ r4.length := length_dropWhile_le _ _
          injection h with h
          injection h with hfst hsnd
          subst hsnd
          simp at h1 h2
          omega
        · exact absurd h (by simp)
    · exact absurd h (by simp)

/-- Fuel-indexed `finditer` loop: at each position, either a match starts
(only possible at a `<`) and scanning resumes after its value, or scanning
advances one character.  The fuel only serves structural recursion. -/
def scanTagsF : Nat → List Char → List Tag
  | 0, _ => []
  | _ + 1, [] => []
  | f + 1, c :: cs =>
    if c = '<' then
      match tryTag cs with
      | some (t, r) => t :: scanTagsF f r
      | none => scanTagsF f cs
    else scanTagsF f cs

/-- `TAG_PATTERN.finditer(l)`: the list of tag matches, left to right. -/
def scanTags (l : List Char) : List Tag :=
  scanTagsF l.length l

theorem scanTagsF_congr :
    ∀ (f₁ : Nat) (l : List Char) (f₂ : Nat), l.length ≤ f₁ → l.length ≤ f₂ →
      scanTagsF f₁ l = scanTagsF f₂ l := by
  intro f₁
  induction f₁ with
  | zero =>
    intro l f₂ h₁ _
    have : l = [] := by
      cases l with
      | nil => rfl
      | cons a as => simp at h₁
    subst this
    cases f₂ <;> simp [scanTagsF]
  | succ f ih =>
    intro l f₂ h₁ h₂
    cases l with
    | nil => cases f₂ <;> simp [scanTagsF]
    | cons c cs =>
      cases f₂ with
      | zero => simp at h₂
      | succ g =>
        simp only [scanTagsF]
        by_cases hc : c = '<'
        · simp only [hc, if_pos rfl]
          cases htt : tryTag cs with
          | some tr =>
            obtain ⟨t, r⟩ := tr
            have hr : r.length ≤ cs.length := tryTag_length htt
            simp only [List.length_cons] at h₁ h₂
            exact congrArg (t :: ·) (ih r g (by omega) (by omega))
          | none =>
            simp only [List.length_cons] at h₁ h₂
            exact ih cs g (by omega) (by omega)
        · simp only [if_neg hc]
          simp only [List.length_cons] at h₁ h₂
          exact ih cs g (by omega) (by omega)

theorem scanTags_nil : scanTags [] = [] := rfl

theorem scanTags_cons_ne {c : Char} (cs : List Char) (h : c ≠ '<') :
    scanTags (c :: cs) = scanTags cs := by
  show scanTagsF (cs.length + 1) (c :: cs) = scanTags cs
  simp only [scanTagsF, if_neg h]
  rfl

theorem scanTags_cons_fail {cs : List Char} (h : tryTag cs = none) :
    scanTags ('<' :: cs) = scanTags cs := by
  show scanTagsF (cs.length + 1) ('<' :: cs) = scanTags cs
  simp only [scanTagsF, if_pos rfl, h]
  exact if_pos trivial

theorem scanTags_cons_ok {cs r : List Char} {t : Tag} (h : tryTag cs = some (t, r)) :
    scanTags ('<' :: cs) = t :: scanTags r := by
  show scanTagsF (cs.length + 1) ('<' :: cs) = t :: scanTags r
  simp only [scanTagsF, if_pos rfl, h]
  exact congrArg (t :: ·) (scanTagsF_congr cs.length r r.length (tryTag_length h) le_rfl)

/-! ### Python `float()` on strings

`float(value)` accepts (after stripping whitespace): an optional sign, then
either a case-insensitive `inf`, `infinity` or `nan`, or a decimal numeral
`digits [. digits] [(e|E) [sign] digits]` with at least one digit in the
mantissa, where each digit run may contain single underscores between two
digits (PEP 515).  Anything else raises `ValueError`.  The numeric result is
modelled exactly (as a rational); IEEE rounding and overflow to infinity of
huge exponents are not modelled, no statement below depends on them.
-/

inductive PyFloat where
  | finite : ℚ → PyFloat
  | inf : Bool → PyFloat
  | nan : PyFloat
deriving DecidableEq

/-- Consume a digit run with PEP 515 underscores: digits, with single
underscores allowed only between two digits.  Returns the digits (underscores
removed) and the unconsumed rest.  The head of the input is assumed (by
`digRun`) to be a digit. -/
def digTail : List Char → List Char × List Char
  | [] => ([], [])
  | [c] => if c.isDigit then ([c], []) else ([], [c])
  | c :: d :: r2 =>
    if c.isDigit then
      let p := digTail (d :: r2)
      (c :: p.1, p.2)
    else if c = '_' ∧ d.isDigit then
      let p := digTail r2
      (d :: p.1, p.2)
    else ([], c :: d :: r2)

/-- A non-empty digit run (with PEP 515 underscores); fails unless the input
starts with a digit. -/
def digRun (l : List Char) : Option (List Char × List Char) :=
  match l with
  | c :: _ => if c.isDigit then some (digTail l) else none
  | [] => none

/-- An optional leading sign; the Boolean is the negative flag. -/
def parseSign : List Char → Bool × List Char
  | [] => (false, [])
  | c :: r =>
    if c = '+' then (false, r)
    else if c = '-' then (true, r)
    else (false, c :: r)

/-- The natural number denoted by a run of decimal digits. -/
def natOfDigits (l : List Char) : Nat :=
  l.foldl (fun n c => 10 * n + (c.toNat - 48)) 0

/-- The rational denoted by integer digits and fraction digits. -/
def decMant (ints frs : List Char) : ℚ :=
  (natOfDigits (ints ++ frs) : ℚ) / (10 : ℚ) ^ frs.length

/-- Finish a numeral: after the mantissa, the rest must be empty or a full
exponent part `(e|E) [sign] digits`. -/
def finishNum (ints frs rest : List Char) : Option ℚ :=
  match rest with
  | [] => some (decMant ints frs)
  | c :: r4 =>
    if c = 'e' ∨ c = 'E' then
      match digRun (parseSign r4).2 with
      | some (es, []) =>
        some (if (parseSign r4).1 then decMant ints frs / (10 : ℚ) ^ natOfDigits es
          else decMant ints frs * (10 : ℚ) ^ natOfDigits es)
      | _ => none
    else none

/-- The decimal-numeral grammar of `float` (sign already consumed):
`digits [. [digits]] [exp]` or `. digits [exp]`. -/
def parseNum (r : List Char) : Option ℚ :=
  match digRun r with
  | some (ints, r1) =>
    match r1 with
    | '.' :: r2 =>
      match digRun r2 with
      | some (frs, r3) => finishNum ints frs r3
      | none => finishNum ints [] r2
    | _ => finishNum ints [] r1
  | none =>
    match r with
    | '.' :: r2 =>
      match digRun r2 with
      | some (frs, r3) => finishNum [] frs r3
      | none => none
    | _ => none

def infLit : List Char := ['i', 'n', 'f']

def infinityLit : List Char := ['i', 'n', 'f', 'i', 'n', 'i', 't', 'y']

def nanLit : List Char := ['n', 'a', 'n']

/-- Python `float(s)` for a string argument: `some` result, or `none` for
`ValueError`.  The decimal grammar and the `inf`/`nan` spellings are
disjoint (one starts with a digit or a dot, the other with a letter), so
trying the numeral first is equivalent to Python's single grammar. -/
def pyFloat (s : String) : Option PyFloat :=
  let l := pyStrip s.data
  let neg := (parseSign l).1
  let r := (parseSign l).2
  match parseNum r with
  | some q => some (PyFloat.finite (if neg then -q else q))
  | none =>
    let low := r.map Char.toLower
    if low = infLit ∨ low = infinityLit then some (PyFloat.inf neg)
    else if low = nanLit then some PyFloat.nan
    else none

/-! ### Records and per-tag processing

`parse_lines` builds one `record` dict per `<eor>` segment.  A Python dict
is insertion-ordered; assigning to an existing key keeps its position and
replaces the value.  It is modelled as an association list. -/

inductive Value where
  | num : PyFloat → Value
  | str : String → Value
deriving DecidableEq

abbrev Assoc := List (String × Value)

/-- `NON_FLOAT_TAGS = frozenset(['BAND', 'QSO_DATE', 'TIME_ON', 'QSO_DATE_OFF', 'TIME_OFF'])`. -/
def NON_FLOAT_TAGS : List String :=
  ["BAND", "QSO_DATE", "TIME_ON", "QSO_DATE_OFF", "TIME_OFF"]

/-- `record[tag_name] = value` on an insertion-ordered dict: replace in place
if the key is present, else append. -/
def insertRecord (rec : Assoc) (k : String) (v : Value) : Assoc :=
  if rec.any (fun p => p.1 == k) then
    rec.map (fun p => if p.1 == k then (k, v) else p)
  else rec ++ [(k, v)]

/-- Dict lookup. -/
def lookupA (rec : Assoc) (k : String) : Option Value :=
  (rec.find? (fun p => p.1 == k)).map Prod.snd

/-- Dict key order (insertion order). -/
def keysOf (rec : Assoc) : List String :=
  rec.map Prod.fst

/-- `tag_name.strip().upper()`. -/
def normName (t : Tag) : String :=
  String.mk ((pyStrip t.name).map Char.toUpper)

/-- The type coercion of `parse_lines`: keep strings for `NON_FLOAT_TAGS`,
otherwise `try: float(value) except ValueError: pass`. -/
def coerce (nm sv : String) : Value :=
  if nm ∈ NON_FLOAT_TAGS then Value.str sv
  else
    match pyFloat sv with
    | some f => Value.num f
    | none => Value.str sv

/-- The body of the `for match in TAG_PATTERN.finditer(...)` loop: strip the
value, skip the tag if it is empty, else normalise the name, coerce the
value and assign into the record dict. -/
def processTag (rec : Assoc) (t : Tag) : Assoc :=
  let v := pyStrip t.value
  if v = [] then rec
  else insertRecord rec (normName t) (coerce (normName t) (String.mk v))

/-- Scanning one raw record substring into a record dict. -/
def parse_recordL (l : List Char) : Assoc :=
  (scanTags l).foldl processTag []

def parse_record (s : String) : Assoc :=
  parse_recordL s.data

/-- `ParseADIF.parse_lines`: split on `<eor>`, scan every piece, append the
non-empty records in order. -/
def parse_linesL (l : List Char) : List Assoc :=
  (eorSplit l).foldl
    (fun records raw =>
      let record := parse_recordL raw
      if record.isEmpty then records else records ++ [record])
    []

def parse_lines (s : String) : List Assoc :=
  parse_linesL s.data

/-- The shape of `self.header`: the empty dict `\x7b\x7d` when no `<eoh>` is
found, and the list returned by `parse_lines` otherwise. -/
inductive HeaderVal where
  | emptyDict : HeaderVal
  | records : List Assoc → HeaderVal
deriving DecidableEq

/-- `ParseADIF.parse_adif`: normalise whitespace, split once on `<eoh>`,
parse header and body (or only the body when there is no `<eoh>`).
Returns `(self.header, self.adif_data)`. -/
def parse_adif (s : String) : HeaderVal × List Assoc :=
  match eohSplitA (normWS s) with
  | some (p, q) => (HeaderVal.records (parse_linesL p), parse_linesL q)
  | none => (HeaderVal.emptyDict, parse_linesL (normWS s))

/-- `ParseADIF.__iter__`: a generator with the single statement
`yield self.adif_data` — the whole QSO list is yielded as one item. -/
def adifIterate (d : HeaderVal × List Assoc) : List (List Assoc) :=
  [d.2]

/-! ### Lemmas about the header split -/

theorem eohSplitA_of_not_hasEoh : ∀ {l : List Char}, hasEoh l = false → eohSplitA l = none := by
  intro l
  induction l with
  | nil => intro _; rfl
  | cons c cs ih =>
    intro h
    simp only [hasEoh, Bool.or_eq_false_iff, decide_eq_false_iff_not] at h
    simp only [eohSplitA, if_neg h.1, ih h.2]

theorem eohSplitA_of_hasEoh : ∀ {l : List Char}, hasEoh l = true →
    ∃ p q, eohSplitA l = some (p, q) := by
  intro l
  induction l with
  | nil => intro h; simp [hasEoh] at h
  | cons c cs ih =>
    intro h
    by_cases he : eohAt (c :: cs)
    · exact ⟨[], (c :: cs).drop 5, by simp only [eohSplitA, if_pos he]⟩
    · simp only [hasEoh, Bool.or_eq_true, decide_eq_true_eq] at h
      obtain ⟨p, q, hp⟩ := ih (h.resolve_left he)
      exact ⟨c :: p, q, by simp only [eohSplitA, if_neg he, hp]⟩

theorem eohAt_append {m : List Char} (v : List Char) (hm : m.map Char.toLower = eohLit) :
    eohAt (m ++ v) := by
  have hlen : m.length = 5 := by
    have := congrArg List.length hm
    simpa [eohLit] using this
  show ((m ++ v).take 5).map Char.toLower = eohLit
  rw [← hlen, List.take_left, hm]

theorem eohSplitA_cons_pos {c : Char} {cs : List Char} (h : eohAt (c :: cs)) :
    eohSplitA (c :: cs) = some ([], (c :: cs).drop 5) := by
  simp only [eohSplitA, if_pos h]

theorem eohSplitA_cons_neg {c : Char} {cs : List Char} (h : ¬ eohAt (c :: cs)) :
    eohSplitA (c :: cs) = (eohSplitA cs).map (fun pq => (c :: pq.1, pq.2)) := by
  simp only [eohSplitA, if_neg h]
  cases eohSplitA cs with
  | none => rfl
  | some pq => cases pq; rfl

/-- The `maxsplit=1` split of `EOH_PATTERN`: if a case-insensitive `<eoh>`
occurrence sits at position `u.length` and no occurrence starts earlier,
the split returns exactly the text before and after that occurrence. -/
theorem eohSplitA_first :
    ∀ (u m v : List Char), m.map Char.toLower = eohLit →
      (∀ k, k < u.length → ¬ eohAt ((u ++ m ++ v).drop k)) →
      eohSplitA (u ++ m ++ v) = some (u, v) := by
  intro u
  induction u with
  | nil =>
    intro m v hm _
    have hlen : m.length = 5 := by
      have := congrArg List.length hm
      simpa [eohLit] using this
    have hat : eohAt (m ++ v) := eohAt_append v hm
    have hdrop : (m ++ v).drop 5 = v := by
      conv_lhs => rw [← hlen]
      exact List.drop_left _ _
    simp only [List.nil_append]
    cases m with
    | nil => simp [eohLit] at hm
    | cons c m' =>
      rw [List.cons_append] at hat hdrop ⊢
      rw [eohSplitA_cons_pos hat, hdrop]
  | cons c u' ih =>
    intro m v hm hfirst
    have h0 : ¬ eohAt (c :: (u' ++ m ++ v)) := by
      have := hfirst 0 (by simp)
      simpa using this
    have hshift : ∀ k, k < u'.length → ¬ eohAt ((u' ++ m ++ v).drop k) := by
      intro k hk
      have := hfirst (k + 1) (by simp; omega)
      simpa using this
    rw [List.cons_append, List.cons_append, eohSplitA_cons_neg h0, ih m v hm hshift]
    rfl

/-! ### Lemmas about the tag scanner -/

theorem takeWhile_append_of (p : Char → Bool) :
    ∀ (l r : List Char), (∀ c ∈ l, p c = true) →
      (∀ c r', r = c :: r' → p c = false) →
      (l ++ r).takeWhile p = l ∧ (l ++ r).dropWhile p = r := by
  intro l
  induction l with
  | nil =>
    intro r _ hr
    cases r with
    | nil => simp
    | cons c r' => simp [List.takeWhile_cons, List.dropWhile_cons, hr c r' rfl]
  | cons a l' ih =>
    intro r h hr
    have ha : p a = true := h a (by simp)
    have := ih r (fun c hc => h c (by simp [hc])) hr
    simp [List.takeWhile_cons, List.dropWhile_cons, ha, this.1, this.2]

/-- On a well-formed tag the attempt succeeds with exactly the three parts,
regardless of any relation between the declared length and the value. -/
theorem tryTag_wellformed (name len value rest : List Char)
    (hn : name ≠ []) (hnc : ∀ c ∈ name, nameChar c = true)
    (hl : len ≠ []) (hld : ∀ c ∈ len, Char.isDigit c = true)
    (hv : ∀ c ∈ value, valueChar c = true)
    (hrest : rest = [] ∨ ∃ r, rest = '<' :: r) :
    tryTag (name ++ ':' :: (len ++ '>' :: (value ++ rest))) =
      some (⟨name, len, value⟩, rest) := by
  have h1 := takeWhile_append_of nameChar name (':' :: (len ++ '>' :: (value ++ rest))) hnc
    (by intro c r' hc; injection hc with hc _; subst hc; rfl)
  have h2 := takeWhile_append_of Char.isDigit len ('>' :: (value ++ rest)) hld
    (by intro c r' hc; injection hc with hc _; subst hc; rfl)
  have h3 := takeWhile_append_of valueChar value rest hv
    (by
      intro c r' hc
      rcases hrest with h | ⟨r, h⟩
      · rw [h] at hc; exact absurd hc (by simp)
      · rw [h] at hc; injection hc with hc _; subst hc; rfl)
  unfold tryTag
  rw [h1.2]
  simp only [h1.1, h2.1, h2.2, h3.1, h3.2]
  simp [hn, hl]

theorem scanTags_no_tag_start : ∀ {l : List Char}, '<' ∉ l → scanTags l = [] := by
  intro l
  induction l with
  | nil => intro _; rfl
  | cons c cs ih =>
    intro h
    have hc : c ≠ '<' := fun hc => h (by simp [hc])
    rw [scanTags_cons_ne cs hc]
    exact ih (fun hm => h (by simp [hm]))

/-! ### Lemmas about record assembly -/

theorem foldl_records_eq (segs : List (List Char)) :
    ∀ acc : List Assoc,
      segs.foldl
        (fun records raw =>
          if (parse_recordL raw).isEmpty then records else records ++ [parse_recordL raw])
        acc
      = acc ++ (segs.map parse_recordL).filter (fun r => !r.isEmpty) := by
  induction segs with
  | nil => intro acc; simp
  | cons s ss ih =>
    intro acc
    simp only [List.foldl_cons, List.map_cons, List.filter_cons]
    by_cases h : (parse_recordL s).isEmpty
    · rw [if_pos h, ih acc]
      simp [h]
    · rw [Bool.not_eq_true] at h
      rw [if_neg (by simp [h]), ih (acc ++ [parse_recordL s])]
      simp [h]

/-- `parse_lines` keeps, in order, exactly the non-empty records of the
`<eor>` segments. -/
theorem parse_linesL_eq_filter (l : List Char) :
    parse_linesL l = ((eorSplit l).map parse_recordL).filter (fun r => !r.isEmpty) := by
  show (eorSplit l).foldl
      (fun records raw =>
        if (parse_recordL raw).isEmpty then records else records ++ [parse_recordL raw])
      []
    = _
  simpa using foldl_records_eq (eorSplit l) []

/-! ### Lemmas about the record dict -/

theorem lookupA_cons_pos {p : String × Value} {rec : Assoc} {k : String}
    (hp : (p.1 == k) = true) : lookupA (p :: rec) k = some p.2 := by
  simp [lookupA, List.find?_cons_of_pos, hp]

theorem lookupA_cons_neg {p : String × Value} {rec : Assoc} {k : String}
    (hp : (p.1 == k) = false) : lookupA (p :: rec) k = lookupA rec k := by
  simp [lookupA, List.find?_cons_of_neg, hp]

theorem lookupA_map_update {rec : Assoc} {k : String} (v : Value)
    (ha : rec.any (fun p => p.1 == k) = true) :
    lookupA (rec.map (fun p => if p.1 == k then (k, v) else p)) k = some v := by
  induction rec with
  | nil => simp at ha
  | cons p rs ih =>
    by_cases hp : (p.1 == k) = true
    · rw [List.map_cons, if_pos hp, lookupA_cons_pos (by simp)]
    · rw [List.map_cons, if_neg hp]
      rw [Bool.not_eq_true] at hp
      have ha' : rs.any (fun p => p.1 == k) = true := by
        simpa [List.any_cons, hp] using ha
      rw [lookupA_cons_neg hp]
      exact ih ha'

theorem lookupA_append_single {rec : Assoc} {k : String} (v : Value)
    (ha : rec.any (fun p => p.1 == k) = false) :
    lookupA (rec ++ [(k, v)]) k = some v := by
  induction rec with
  | nil => simp [lookupA_cons_pos]
  | cons p rs ih =>
    simp only [List.any_cons, Bool.or_eq_false_iff] at ha
    rw [List.cons_append, lookupA_cons_neg ha.1]
    exact ih ha.2

/-- Assigning under key `k` makes lookup of `k` return the new value. -/
theorem lookupA_insert_self (rec : Assoc) (k : String) (v : Value) :
    lookupA (insertRecord rec k v) k = some v := by
  unfold insertRecord
  by_cases ha : rec.any (fun p => p.1 == k) = true
  · rw [if_pos ha]
    exact lookupA_map_update v ha
  · rw [if_neg ha]
    rw [Bool.not_eq_true] at ha
    exact lookupA_append_single v ha

theorem lookupA_map_update_ne (rec : Assoc) (k k' : String) (v : Value)
    (h : (k' == k) = false) :
    lookupA (rec.map (fun p => if p.1 == k' then (k', v) else p)) k = lookupA rec k := by
  induction rec with
  | nil => rfl
  | cons p rs ih =>
    by_cases hp : (p.1 == k') = true
    · rw [List.map_cons, if_pos hp]
      have hpk : (p.1 == k) = false := by
        have hp' : p.1 = k' := eq_of_beq hp
        rw [hp']
        exact h
      rw [lookupA_cons_neg (show ((k', v).1 == k) = false from h), lookupA_cons_neg hpk]
      exact ih
    · rw [List.map_cons, if_neg hp]
      by_cases hpk : (p.1 == k) = true
      · rw [lookupA_cons_pos hpk, lookupA_cons_pos hpk]
      · rw [Bool.not_eq_true] at hpk
        rw [lookupA_cons_neg hpk, lookupA_cons_neg hpk]
        exact ih

/-- Assigning under a different key leaves lookup of `k` unchanged. -/
theorem lookupA_insert_ne (rec : Assoc) (k k' : String) (v : Value)
    (h : (k' == k) = false) :
    lookupA (insertRecord rec k' v) k = lookupA rec k := by
  unfold insertRecord
  by_cases ha : rec.any (fun p => p.1 == k') = true
  · rw [if_pos ha]
    exact lookupA_map_update_ne rec k k' v h
  · rw [if_neg ha]
    induction rec with
    | nil => simp [lookupA, h]
    | cons p rs ih =>
      by_cases hpk : (p.1 == k) = true
      · rw [List.cons_append, lookupA_cons_pos hpk, lookupA_cons_pos hpk]
      · rw [Bool.not_eq_true] at hpk
        rw [List.cons_append, lookupA_cons_neg hpk, lookupA_cons_neg hpk]
        exact ih (by intro hx; exact ha (by simp [List.any_cons, hx]))

theorem any_key_iff (rec : Assoc) (k : String) :
    rec.any (fun p => p.1 == k) = true ↔ k ∈ keysOf rec := by
  rw [List.any_eq_true]
  constructor
  · rintro ⟨p, hp, hb⟩
    exact List.mem_map.mpr ⟨p, hp, eq_of_beq hb⟩
  · intro hk
    obtain ⟨p, hp, hpk⟩ := List.mem_map.mp hk
    exact ⟨p, hp, by rw [hpk]; exact beq_self_eq_true k⟩

/-- The fold step on key sequences: record a key the first time it appears. -/
def dedupStep (acc : List String) (n : String) : List String :=
  if n ∈ acc then acc else acc ++ [n]

theorem keysOf_insert (rec : Assoc) (k : String) (v : Value) :
    keysOf (insertRecord rec k v) = dedupStep (keysOf rec) k := by
  unfold insertRecord dedupStep
  by_cases hm : k ∈ keysOf rec
  · rw [if_pos ((any_key_iff rec k).mpr hm), if_pos hm]
    unfold keysOf
    rw [List.map_map]
    apply List.map_congr_left
    intro p _
    by_cases hp : (p.1 == k) = true
    · simp [Function.comp, hp, (eq_of_beq hp).symm]
    · simp [Function.comp, hp]
  · rw [if_neg (fun h => hm ((any_key_iff rec k).mp h)), if_neg hm]
    simp [keysOf]

/-! ### The contribution of one tag and the two fold characterisations -/

/-- What one scanned tag contributes to the record: nothing when the value
strips to empty, else the normalised name with the coerced value. -/
def contrib (t : Tag) : Option (String × Value) :=
  if pyStrip t.value = [] then none
  else some (normName t, coerce (normName t) (String.mk (pyStrip t.value)))

theorem processTag_eq_contrib (rec : Assoc) (t : Tag) :
    processTag rec t =
      match contrib t with
      | none => rec
      | some kv => insertRecord rec kv.1 kv.2 := by
  unfold processTag contrib
  by_cases h : pyStrip t.value = [] <;> simp [h]

/-- The values contributed under key `k`, in scan order. -/
def storedVals (ts : List Tag) (k : String) : List Value :=
  ts.filterMap (fun t =>
    match contrib t with
    | some kv => if kv.1 = k then some kv.2 else none
    | none => none)

/-- The keys contributed, in scan order (with multiplicity). -/
def contribKeys (ts : List Tag) : List String :=
  ts.filterMap (fun t => (contrib t).map Prod.fst)

/-- First-occurrence deduplication of a key sequence. -/
def dedupFirst (ks : List String) : List String :=
  ks.foldl dedupStep []

theorem getLast?_cons_form (w : Value) (l : List Value) :
    (w :: l).getLast? =
      match l.getLast? with
      | some v => some v
      | none => some w := by
  induction l generalizing w with
  | nil => rfl
  | cons x xs ih =>
    cases hxs : xs.getLast? <;> simp [List.getLast?_cons_cons, ih x, hxs]

/-- Lookup after the tag fold: the last contributed value under the key
wins; with no contribution the initial record decides. -/
theorem lookupA_foldl_processTag :
    ∀ (ts : List Tag) (rec : Assoc) (k : String),
      lookupA (ts.foldl processTag rec) k =
        match (storedVals ts k).getLast? with
        | some v => some v
        | none => lookupA rec k := by
  intro ts
  induction ts with
  | nil => intro rec k; simp [storedVals]
  | cons t ts ih =>
    intro rec k
    rw [List.foldl_cons, ih (processTag rec t) k]
    cases hc : contrib t with
    | none =>
      have hpt : processTag rec t = rec := by rw [processTag_eq_contrib, hc]
      have hsv : storedVals (t :: ts) k = storedVals ts k := by simp [storedVals, hc]
      rw [hpt, hsv]
    | some kv =>
      obtain ⟨k', w⟩ := kv
      have hpt : processTag rec t = insertRecord rec k' w := by
        rw [processTag_eq_contrib, hc]
      by_cases hk : k' = k
      · subst hk
        have hsv : storedVals (t :: ts) k' = w :: storedVals ts k' := by
          simp [storedVals, hc]
        rw [hsv, hpt, getLast?_cons_form]
        cases hxs : (storedVals ts k').getLast? with
        | some v => simp
        | none => simp [lookupA_insert_self]
      · have hkb : (k' == k) = false := beq_eq_false_iff_ne.mpr hk
        have hsv : storedVals (t :: ts) k = storedVals ts k := by
          simp [storedVals, hc, hk]
        rw [hsv, hpt]
        cases hxs : (storedVals ts k).getLast? with
        | some v => simp
        | none => simp [lookupA_insert_ne rec k k' w hkb]

/-- Keys after the tag fold: contributed keys in scan order, first
occurrence deciding the position. -/
theorem keysOf_foldl_processTag :
    ∀ (ts : List Tag) (rec : Assoc),
      keysOf (ts.foldl processTag rec) = (contribKeys ts).foldl dedupStep (keysOf rec) := by
  intro ts
  induction ts with
  | nil => intro rec; simp [contribKeys]
  | cons t ts ih =>
    intro rec
    rw [List.foldl_cons, ih (processTag rec t)]
    cases hc : contrib t with
    | none =>
      have hpt : processTag rec t = rec := by rw [processTag_eq_contrib, hc]
      have hck : contribKeys (t :: ts) = contribKeys ts := by simp [contribKeys, hc]
      rw [hpt, hck]
    | some kv =>
      obtain ⟨k, w⟩ := kv
      have hpt : processTag rec t = insertRecord rec k w := by
        rw [processTag_eq_contrib, hc]
      have hck : contribKeys (t :: ts) = k :: contribKeys ts := by simp [contribKeys, hc]
      rw [hpt, hck, List.foldl_cons, keysOf_insert]

/-! ### Plain decimal numerals and `float` -/

/-- Modelled from the spec: a plain decimal number — an optional sign, a
run of digits, optionally followed by a decimal point and a further digit
run; a decimal point but no grouping separators. -/
def isPlainDecimal (s : String) : Bool :=
  let r := (parseSign s.data).2
  let d1 := r.takeWhile Char.isDigit
  let rest := r.dropWhile Char.isDigit
  !d1.isEmpty &&
    (rest.isEmpty ||
      (rest.head? == some '.' && (!rest.tail.isEmpty && rest.tail.all Char.isDigit)))

theorem digTail_cons_digit {c : Char} (r : List Char) (h : Char.isDigit c = true) :
    digTail (c :: r) = (c :: (digTail r).1, (digTail r).2) := by
  cases r with
  | nil => simp [digTail, h]
  | cons d r2 => simp [digTail, h]

theorem digTail_cons_other {c : Char} (r : List Char) (hd : Char.isDigit c = false)
    (hu : c ≠ '_') : digTail (c :: r) = ([], c :: r) := by
  cases r with
  | nil => simp [digTail, hd]
  | cons d r2 => simp [digTail, hd, hu]

theorem digTail_digits :
    ∀ (ds rest : List Char), (∀ c ∈ ds, Char.isDigit c = true) →
      (rest = [] ∨ ∃ c r', rest = c :: r' ∧ Char.isDigit c = false ∧ c ≠ '_') →
      digTail (ds ++ rest) = (ds, rest) := by
  intro ds
  induction ds with
  | nil =>
    intro rest _ hrest
    rcases hrest with rfl | ⟨c, r', rfl, hcd, hcu⟩
    · rfl
    · exact digTail_cons_other r' hcd hcu
  | cons d ds' ih =>
    intro rest h hrest
    have hd : Char.isDigit d = true := h d (by simp)
    have ht := ih rest (fun c hc => h c (by simp [hc])) hrest
    show digTail (d :: (ds' ++ rest)) = (d :: ds', rest)
    rw [digTail_cons_digit _ hd, ht]

theorem digRun_digits {ds rest : List Char} (hne : ds ≠ [])
    (h : ∀ c ∈ ds, Char.isDigit c = true)
    (hrest : rest = [] ∨ ∃ c r', rest = c :: r' ∧ Char.isDigit c = false ∧ c ≠ '_') :
    digRun (ds ++ rest) = some (ds, rest) := by
  cases ds with
  | nil => exact absurd rfl hne
  | cons d ds' =>
    have hd : Char.isDigit d = true := h d (by simp)
    simp only [digRun, List.cons_append, if_pos hd]
    rw [← List.cons_append, digTail_digits (d :: ds') rest h hrest]

theorem parseNum_plain (d1 rest : List Char) (h1 : d1 ≠ [])
    (h2 : ∀ c ∈ d1, Char.isDigit c = true)
    (h3 : rest = [] ∨ ∃ d2, rest = '.' :: d2 ∧ d2 ≠ [] ∧ ∀ c ∈ d2, Char.isDigit c = true) :
    ∃ q, parseNum (d1 ++ rest) = some q := by
  have hrestOk : rest = [] ∨ ∃ c r', rest = c :: r' ∧ Char.isDigit c = false ∧ c ≠ '_' := by
    rcases h3 with rfl | ⟨d2, rfl, _, _⟩
    · exact Or.inl rfl
    · exact Or.inr ⟨'.', d2, rfl, by decide, by decide⟩
  have hrun := digRun_digits h1 h2 hrestOk
  rcases h3 with rfl | ⟨d2, rfl, hd2ne, hd2⟩
  · refine ⟨decMant d1 [], ?_⟩
    simp only [List.append_nil] at hrun
    simp [parseNum, hrun, finishNum]
  · refine ⟨decMant d1 d2, ?_⟩
    have hrun2 : digRun (d2 ++ []) = some (d2, []) :=
      digRun_digits hd2ne hd2 (Or.inl rfl)
    simp only [List.append_nil] at hrun2
    simp [parseNum, hrun, hrun2, finishNum]

theorem isWS_false_of_isDigit {c : Char} (h : Char.isDigit c = true) : isWS c = false := by
  cases hw : isWS c
  · rfl
  · exfalso
    simp only [isWS, Bool.or_eq_true, beq_iff_eq] at hw
    rcases hw with ((((h' | h') | h') | h') | h') | h' <;> subst h' <;>
      exact absurd h (by decide)

theorem pyStrip_eq_self {l : List Char} (h : ∀ c ∈ l, isWS c = false) :
    pyStrip l = l := by
  unfold pyStrip
  have h1 : l.dropWhile isWS = l := by
    cases l with
    | nil => rfl
    | cons c cs => simp [List.dropWhile_cons, h c (by simp)]
  rw [h1]
  have h2 : l.reverse.dropWhile isWS = l.reverse := by
    cases hr : l.reverse with
    | nil => rfl
    | cons c cs =>
      have hc : c ∈ l := by
        rw [← List.mem_reverse, hr]
        simp
      simp [List.dropWhile_cons, h c hc]
  rw [h2, List.reverse_reverse]

/-- Every plain decimal numeral converts under `float` — to a finite value. -/
theorem plainDecimal_pyFloat (s : String) (h : isPlainDecimal s = true) :
    ∃ q, pyFloat s = some (PyFloat.finite q) := by
  simp only [isPlainDecimal, Bool.and_eq_true, Bool.or_eq_true, Bool.not_eq_true',
    beq_iff_eq] at h
  obtain ⟨hd1, hform⟩ := h
  set r := (parseSign s.data).2 with hr
  set d1 := r.takeWhile Char.isDigit with hd1def
  set rest := r.dropWhile Char.isDigit with hrestdef
  have hsplit : d1 ++ rest = r := List.takeWhile_append_dropWhile Char.isDigit r
  have hd1dig : ∀ c ∈ d1, Char.isDigit c = true := fun c hc => List.mem_takeWhile_imp hc
  have hd1ne : d1 ≠ [] := by
    intro hnil
    rw [hnil] at hd1
    simp at hd1
  have hform' : rest = [] ∨ ∃ d2, rest = '.' :: d2 ∧ d2 ≠ [] ∧ ∀ c ∈ d2, Char.isDigit c = true := by
    rcases hform with hnil | ⟨hhead, htail, hall⟩
    · left
      simpa using hnil
    · cases hrest : rest with
      | nil => exact Or.inl rfl
      | cons c d2 =>
        rw [hrest] at hhead htail hall
        simp only [List.head?_cons, Option.some.injEq] at hhead
        subst hhead
        simp only [List.tail_cons] at htail hall
        refine Or.inr ⟨d2, rfl, ?_, ?_⟩
        · intro hnil
          rw [hnil] at htail
          simp at htail
        · intro c hc
          exact List.all_eq_true.mp hall c hc
  have hq : ∃ q, parseNum r = some q := by
    rw [← hsplit]
    exact parseNum_plain d1 rest hd1ne hd1dig hform'
  obtain ⟨q, hqeq⟩ := hq
  have hrmem : ∀ c ∈ r, isWS c = false := by
    intro c hc
    rw [← hsplit] at hc
    rcases List.mem_append.mp hc with hc | hc
    · exact isWS_false_of_isDigit (hd1dig c hc)
    · rcases hform' with hnil | ⟨d2, hrest2, _, hall⟩
      · rw [hnil] at hc
        simp at hc
      · rw [hrest2] at hc
        rcases List.mem_cons.mp hc with rfl | hc2
        · decide
        · exact isWS_false_of_isDigit (hall c hc2)
  cases hs : s.data with
  | nil =>
    exfalso
    apply hd1ne
    rw [hd1def, hr, hs]
    rfl
  | cons c cs =>
    by_cases hcp : c = '+'
    · subst hcp
      have hps : parseSign s.data = (false, cs) := by rw [hs]; simp [parseSign]
      have hrcs : r = cs := by rw [hr, hps]
      have hnws : ∀ x ∈ s.data, isWS x = false := by
        intro x hx
        rw [hs] at hx
        rcases List.mem_cons.mp hx with rfl | hx
        · decide
        · exact hrmem x (by rw [hrcs]; exact hx)
      have hstrip : pyStrip s.data = s.data := pyStrip_eq_self hnws
      refine ⟨q, ?_⟩
      rw [hrcs] at hqeq
      simp only [pyFloat, hstrip, hps, hqeq]
      simp
    · by_cases hcm : c = '-'
      · subst hcm
        have hps : parseSign s.data = (true, cs) := by rw [hs]; simp [parseSign]
        have hrcs : r = cs := by rw [hr, hps]
        have hnws : ∀ x ∈ s.data, isWS x = false := by
          intro x hx
          rw [hs] at hx
          rcases List.mem_cons.mp hx with rfl | hx
          · decide
          · exact hrmem x (by rw [hrcs]; exact hx)
        have hstrip : pyStrip s.data = s.data := pyStrip_eq_self hnws
        refine ⟨-q, ?_⟩
        rw [hrcs] at hqeq
        simp only [pyFloat, hstrip, hps, hqeq]
        simp
      · have hps : parseSign s.data = (false, c :: cs) := by
          rw [hs]
          simp [parseSign, hcp, hcm]
        have hrcs : r = c :: cs := by rw [hr, hps]
        have hnws : ∀ x ∈ s.data, isWS x = false := by
          intro x hx
          rw [hs] at hx
          exact hrmem x (by rw [hrcs]; exact hx)
        have hstrip : pyStrip s.data = s.data := pyStrip_eq_self hnws
        refine ⟨q, ?_⟩
        rw [hrcs] at hqeq
        simp only [pyFloat, hstrip, hps, hqeq]
        simp

/-! ### The decoder with Python exceptions made explicit

The only operation inside the decoder that can raise is `float(value)`
(`ValueError`), and the source wraps it in `try/except ValueError: pass`.
The decoder is repeated here in an `Except` monad that propagates any
uncaught exception, to state that none escapes. -/

inductive PyErr where
  | valueError : PyErr
deriving DecidableEq

/-- `float(value)` as a fallible operation. -/
def floatE (s : String) : Except PyErr PyFloat :=
  match pyFloat s with
  | some f => Except.ok f
  | none => Except.error PyErr.valueError

/-- The loop body with explicit exceptions; the `try/except` around
`float` catches exactly `ValueError` and keeps the string. -/
def processTagE (rec : Assoc) (t : Tag) : Except PyErr Assoc :=
  let v := pyStrip t.value
  if v = [] then Except.ok rec
  else
    match
      (if normName t ∈ NON_FLOAT_TAGS then Except.ok (Value.str (String.mk v))
       else
         match floatE (String.mk v) with
         | Except.ok f => Except.ok (Value.num f)
         | Except.error PyErr.valueError => Except.ok (Value.str (String.mk v))) with
    | Except.ok w => Except.ok (insertRecord rec (normName t) w)
    | Except.error e => Except.error e

def parse_recordE (l : List Char) : Except PyErr Assoc :=
  (scanTags l).foldlM processTagE []

def parse_linesE (l : List Char) : Except PyErr (List Assoc) :=
  (eorSplit l).foldlM
    (fun records raw => do
      let record ← parse_recordE raw
      pure (if record.isEmpty then records else records ++ [record]))
    []

def parse_adifE (s : String) : Except PyErr (HeaderVal × List Assoc) :=
  match eohSplitA (normWS s) with
  | some (p, q) => do
    let h ← parse_linesE p
    let b ← parse_linesE q
    pure (HeaderVal.records h, b)
  | none => do
    let b ← parse_linesE (normWS s)
    pure (HeaderVal.emptyDict, b)

theorem processTagE_ok (rec : Assoc) (t : Tag) :
    processTagE rec t = Except.ok (processTag rec t) := by
  unfold processTagE processTag coerce
  by_cases h : pyStrip t.value = []
  · simp [h]
  · by_cases hn : normName t ∈ NON_FLOAT_TAGS
    · simp [h, hn]
    · cases hp : pyFloat (String.mk (pyStrip t.value)) <;> simp [h, hn, floatE, hp]

theorem parse_recordE_ok_aux :
    ∀ (ts : List Tag) (rec : Assoc),
      List.foldlM processTagE rec ts = Except.ok (ts.foldl processTag rec) := by
  intro ts
  induction ts with
  | nil => intro rec; rfl
  | cons t ts ih =>
    intro rec
    rw [List.foldlM_cons, processTagE_ok]
    show List.foldlM processTagE (processTag rec t) ts = _
    rw [ih (processTag rec t), List.foldl_cons]

theorem parse_recordE_ok (l : List Char) :
    parse_recordE l = Except.ok (parse_recordL l) :=
  parse_recordE_ok_aux (scanTags l) []

theorem parse_linesE_ok_aux :
    ∀ (segs : List (List Char)) (acc : List Assoc),
      List.foldlM
        (fun records raw => do
          let record ← parse_recordE raw
          pure (if record.isEmpty then records else records ++ [record]))
        acc segs
      = Except.ok (segs.foldl
          (fun records raw =>
            if (parse_recordL raw).isEmpty then records else records ++ [parse_recordL raw])
          acc) := by
  intro segs
  induction segs with
  | nil => intro acc; rfl
  | cons s ss ih =>
    intro acc
    rw [List.foldlM_cons, parse_recordE_ok]
    show List.foldlM _ (if (parse_recordL s).isEmpty then acc else acc ++ [parse_recordL s]) ss = _
    rw [ih, List.foldl_cons]

theorem parse_linesE_ok (l : List Char) :
    parse_linesE l = Except.ok (parse_linesL l) := by
  unfold parse_linesE
  rw [parse_linesE_ok_aux (eorSplit l) []]
  rfl

theorem parse_adifE_ok (s : String) :
    parse_adifE s = Except.ok (parse_adif s) := by
  unfold parse_adifE parse_adif
  cases h : eohSplitA (normWS s) with
  | none => simp [parse_linesE_ok]
  | some pq =>
    obtain ⟨p, q⟩ := pq
    simp only [parse_linesE_ok]
    rfl

/-! ### Definitions written from the claims (for comparison with the code) -/

/-- Formalisation of the C1 claim's header rule, written from the spec and
not from the code: run the tag scanner over the whole header segment as one
single record (discarded when empty), with no end-of-record segmentation. -/
def headerAsSingleRecord (l : List Char) : List Assoc :=
  if (parse_recordL l).isEmpty then [] else [parse_recordL l]

/-! ### The claims -/

/-- C1 (counterexample): the claim says the header segment is scanned as one
single record without end-of-record segmentation; but on the input
`<a:1>x<eor><b:1>y<eoh>` the code record-segments the header into two
records, while the claimed rule would give the one merged record. -/
theorem c1_counterexample :
    (parse_adif "<a:1>x<eor><b:1>y<eoh>").1 =
      HeaderVal.records [[("A", Value.str "x")], [("B", Value.str "y")]] ∧
    HeaderVal.records (headerAsSingleRecord ("<a:1>x<eor><b:1>y".data)) ≠
      (parse_adif "<a:1>x<eor><b:1>y<eoh>").1 ∧
    headerAsSingleRecord ("<a:1>x<eor><b:1>y".data) =
      [[("A", Value.str "x"), ("B", Value.str "y")]] :=
  ⟨by decide, by decide, by decide⟩

/-- C1 (amended): the header segment is record-segmented exactly like the
body — split at end-of-record markers, each piece scanned separately, the
non-empty records kept in order. -/
theorem c1_amended (s : String) (u m v : List Char)
    (h1 : normWS s = u ++ m ++ v) (h2 : m.map Char.toLower = eohLit)
    (h3 : ∀ k, k < u.length → ¬ eohAt ((normWS s).drop k)) :
    (parse_adif s).1 =
      HeaderVal.records (((eorSplit u).map parse_recordL).filter (fun r => !r.isEmpty)) := by
  have hf : ∀ k, k < u.length → ¬ eohAt ((u ++ m ++ v).drop k) := by
    rw [← h1]
    exact h3
  unfold parse_adif
  rw [h1, eohSplitA_first u m v h2 hf, ← parse_linesL_eq_filter]

theorem c1_amended_witness :
    (parse_adif "<a:1>x<eor><b:1>y<eoh>").1 =
      HeaderVal.records
        (((eorSplit ("<a:1>x<eor><b:1>y".data)).map parse_recordL).filter
          (fun r => !r.isEmpty)) :=
  c1_amended "<a:1>x<eor><b:1>y<eoh>" ("<a:1>x<eor><b:1>y".data) ("<eoh>".data) []
    (by decide) (by decide) (by decide)

/-- C2 (counterexample): the claim says that outside the exclusion set the
stored value is numeric exactly when the trimmed value parses as a plain
decimal number, and the unchanged string otherwise; but the value `nan` is
no plain decimal numeral and the code still stores a numeric value for it
(`float("nan")` succeeds). -/
theorem c2_counterexample :
    isPlainDecimal "nan" = false ∧
    parse_record "<x:3>nan" = [("X", Value.num PyFloat.nan)] ∧
    Value.num PyFloat.nan ≠ Value.str "nan" :=
  ⟨by decide, by decide, by decide⟩

/-- C2 (amended): a tag whose value strips to empty contributes nothing;
otherwise the stored field is the normalised name with the value coerced by
`coerce` (string for the exclusion set, else numeric exactly when Python
`float` accepts the trimmed value); and every plain decimal numeral is
accepted by `float` — the failure direction of the original claim is what
does not hold, since `float` also accepts exponents, underscores between
digits and `inf`/`nan` spellings. -/
theorem c2_amended (rec : Assoc) (t : Tag) :
    (pyStrip t.value = [] → processTag rec t = rec) ∧
    (pyStrip t.value ≠ [] →
      processTag rec t =
        insertRecord rec (normName t) (coerce (normName t) (String.mk (pyStrip t.value)))) ∧
    (∀ s : String, isPlainDecimal s = true → ∃ q, pyFloat s = some (PyFloat.finite q)) := by
  refine ⟨?_, ?_, fun s hs => plainDecimal_pyFloat s hs⟩
  · intro h
    simp [processTag, h]
  · intro h
    simp [processTag, h]

theorem c2_amended_witness :
    processTag [] ⟨"freq".data, "6".data, " 14.250 ".data⟩ =
      insertRecord [] (normName ⟨"freq".data, "6".data, " 14.250 ".data⟩)
        (coerce (normName ⟨"freq".data, "6".data, " 14.250 ".data⟩)
          (String.mk (pyStrip (" 14.250 ".data)))) ∧
    (∃ q, pyFloat "14.250" = some (PyFloat.finite q)) :=
  ⟨(c2_amended [] ⟨"freq".data, "6".data, " 14.250 ".data⟩).2.1 (by decide),
    (c2_amended [] ⟨[], [], []⟩).2.2 "14.250" (by decide)⟩

/-- C3: the end-of-header marker is matched case-insensitively and the text
is split only at its first occurrence — the suffix (which may itself hold
further markers) is passed whole to the body parser; with no marker the
header is the empty dict and the whole preprocessed text is parsed as the
QSO record sequence. -/
theorem c3_eoh_split (s : String) :
    (hasEoh (normWS s) = false →
      parse_adif s = (HeaderVal.emptyDict, parse_linesL (normWS s))) ∧
    (∀ u m v : List Char, normWS s = u ++ m ++ v →
      m.map Char.toLower = eohLit →
      (∀ k, k < u.length → ¬ eohAt ((normWS s).drop k)) →
      parse_adif s = (HeaderVal.records (parse_linesL u), parse_linesL v)) := by
  constructor
  · intro h
    unfold parse_adif
    rw [eohSplitA_of_not_hasEoh h]
  · intro u m v hsplit hm hfirst
    have hf : ∀ k, k < u.length → ¬ eohAt ((u ++ m ++ v).drop k) := by
      rw [← hsplit]
      exact hfirst
    unfold parse_adif
    rw [hsplit, eohSplitA_first u m v hm hf]

theorem c3_eoh_split_witness :
    parse_adif "<a:1>x" = (HeaderVal.emptyDict, parse_linesL (normWS "<a:1>x")) ∧
    parse_adif "<a:1>x<EoH><b:1>y<eoh><c:1>z" =
      (HeaderVal.records (parse_linesL ("<a:1>x".data)),
        parse_linesL ("<b:1>y<eoh><c:1>z".data)) :=
  ⟨(c3_eoh_split "<a:1>x").1 (by decide),
    (c3_eoh_split "<a:1>x<EoH><b:1>y<eoh><c:1>z").2
      ("<a:1>x".data) ("<EoH>".data) ("<b:1>y<eoh><c:1>z".data)
      (by decide) (by decide) (by decide)⟩

/-- C4: on a well-formed tag the declared length is captured but puts no
bound on the value: the value capture is exactly the text up to the next
`<` (or the end), scanning continues right after it, and no hypothesis
relates the declared length to the value's length. -/
theorem c4_length_not_bounding (name len value rest : List Char)
    (hn : name ≠ []) (hnc : ∀ c ∈ name, nameChar c = true)
    (hl : len ≠ []) (hld : ∀ c ∈ len, Char.isDigit c = true)
    (hv : ∀ c ∈ value, valueChar c = true)
    (hrest : rest = [] ∨ ∃ r, rest = '<' :: r) :
    scanTags ('<' :: (name ++ ':' :: (len ++ '>' :: (value ++ rest)))) =
      ⟨name, len, value⟩ :: scanTags rest := by
  rw [scanTags_cons_ok (tryTag_wellformed name len value rest hn hnc hl hld hv hrest)]

theorem c4_length_not_bounding_witness :
    scanTags ('<' :: ("a".data ++ ':' :: ("2".data ++ '>' :: ("hello".data ++ [])))) =
      Tag.mk "a".data "2".data "hello".data :: scanTags [] ∧
    natOfDigits "2".data = 2 ∧ ("hello".data).length = 5 :=
  ⟨c4_length_not_bounding "a".data "2".data "hello".data []
      (by decide) (by decide) (by decide) (by decide) (by decide) (Or.inl rfl),
    by decide, by decide⟩

/-- C5: when two or more tags of one record segment contribute (non-empty
trimmed values) under the same normalised name, the record maps that name
to the value of the last such occurrence. -/
theorem c5_last_occurrence_wins (l : List Char) (k : String)
    (h : 2 ≤ (storedVals (scanTags l) k).length) :
    lookupA (parse_recordL l) k = (storedVals (scanTags l) k).getLast? := by
  unfold parse_recordL
  rw [lookupA_foldl_processTag (scanTags l) [] k]
  cases hx : (storedVals (scanTags l) k).getLast? with
  | some v => rfl
  | none =>
    exfalso
    cases hsv : storedVals (scanTags l) k with
    | nil =>
      rw [hsv] at h
      simp at h
    | cons a as =>
      rw [hsv, getLast?_cons_form] at hx
      cases has : as.getLast? <;> rw [has] at hx <;> simp at hx

theorem c5_last_occurrence_wins_witness :
    lookupA (parse_recordL ("<a:1>p<a:1>q".data)) "A" =
      (storedVals (scanTags ("<a:1>p<a:1>q".data)) "A").getLast? :=
  c5_last_occurrence_wins ("<a:1>p<a:1>q".data) "A" (by decide)

/-- C6: record segments whose scanned mapping is empty are dropped — the
output is the filtered map over the segments; a whitespace-only segment
always scans to the empty mapping; and the input `"   <eor>   "` parses to
zero records. -/
theorem c6_empty_records_dropped (l seg : List Char) :
    parse_linesL l = ((eorSplit l).map parse_recordL).filter (fun r => !r.isEmpty) ∧
    ((∀ c ∈ seg, isWS c = true) → parse_recordL seg = []) ∧
    parse_adif "   <eor>   " = (HeaderVal.emptyDict, []) := by
  refine ⟨parse_linesL_eq_filter l, ?_, by decide⟩
  intro h
  have hlt : '<' ∉ seg := by
    intro hm
    exact absurd (h '<' hm) (by decide)
  unfold parse_recordL
  rw [scanTags_no_tag_start hlt]
  rfl

theorem c6_empty_records_dropped_witness :
    parse_recordL [' ', ' '] = [] :=
  (c6_empty_records_dropped [] [' ', ' ']).2.1 (by decide)

/-- C7: field order within a record is the first-occurrence order of the
contributing tags, and the record sequence is the in-order filtered map
over the segments — records are appended in input order, never reordered. -/
theorem c7_order_preserved (l body : List Char) :
    keysOf (parse_recordL l) = dedupFirst (contribKeys (scanTags l)) ∧
    parse_linesL body = ((eorSplit body).map parse_recordL).filter (fun r => !r.isEmpty) := by
  constructor
  · unfold parse_recordL dedupFirst
    rw [keysOf_foldl_processTag (scanTags l) []]
    rfl
  · exact parse_linesL_eq_filter body

/-- C8: parsing never lets an exception escape — the decoder in the
explicit-exception monad returns `ok` of the pure result on every input;
a failed tag attempt contributes nothing (scanning just moves on); and text
with no `<` at all yields the empty record. -/
theorem c8_total_no_throw (s : String) :
    parse_adifE s = Except.ok (parse_adif s) ∧
    (∀ cs : List Char, tryTag cs = none → scanTags ('<' :: cs) = scanTags cs) ∧
    (∀ l : List Char, '<' ∉ l → parse_recordL l = []) := by
  refine ⟨parse_adifE_ok s, fun cs h => scanTags_cons_fail h, fun l h => ?_⟩
  unfold parse_recordL
  rw [scanTags_no_tag_start h]
  rfl

theorem c8_total_no_throw_witness :
    parse_adifE "<<x::7>>" = Except.ok (parse_adif "<<x::7>>") ∧
    scanTags ('<' :: ":3>v".data) = scanTags (":3>v".data) ∧
    parse_recordL ("no tags here".data) = [] :=
  ⟨(c8_total_no_throw "<<x::7>>").1,
    (c8_total_no_throw "x").2.1 (":3>v".data) (by decide),
    (c8_total_no_throw "x").2.2 ("no tags here".data) (by decide)⟩

/-- C9: the header attribute is the empty dict exactly when no end-of-header
marker occurs; when one occurs it is the list of all non-empty records
parsed from the header segment — a list, not a single optional record. -/
theorem c9_header_shape (s : String) :
    (hasEoh (normWS s) = false → (parse_adif s).1 = HeaderVal.emptyDict) ∧
    (hasEoh (normWS s) = true →
      ∃ p q, eohSplitA (normWS s) = some (p, q) ∧
        (parse_adif s).1 =
          HeaderVal.records (((eorSplit p).map parse_recordL).filter (fun r => !r.isEmpty))) := by
  constructor
  · intro h
    unfold parse_adif
    rw [eohSplitA_of_not_hasEoh h]
  · intro h
    obtain ⟨p, q, hpq⟩ := eohSplitA_of_hasEoh h
    refine ⟨p, q, hpq, ?_⟩
    unfold parse_adif
    rw [hpq, ← parse_linesL_eq_filter]

theorem c9_header_shape_witness :
    (parse_adif "<a:1>x").1 = HeaderVal.emptyDict ∧
    (∃ p q, eohSplitA (normWS "<x:1>1<eor><y:1>2<eoh>") = some (p, q) ∧
      (parse_adif "<x:1>1<eor><y:1>2<eoh>").1 =
        HeaderVal.records
          (((eorSplit p).map parse_recordL).filter (fun r => !r.isEmpty))) :=
  ⟨(c9_header_shape "<a:1>x").1 (by decide),
    (c9_header_shape "<x:1>1<eor><y:1>2<eoh>").2 (by decide)⟩

/-- C10: iterating the parsed object yields exactly one item — the whole
QSO record list as a single element — even when it holds several records. -/
theorem c10_iterate_single (s : String) :
    adifIterate (parse_adif s) = [(parse_adif s).2] ∧
    (adifIterate (parse_adif s)).length = 1 ∧
    (adifIterate (parse_adif "<a:1>x<eor><b:1>y<eor>")).length = 1 ∧
    (parse_adif "<a:1>x<eor><b:1>y<eor>").2.length = 2 :=
  ⟨rfl, rfl, by decide, by decide⟩

end ToCabrillo
